import Mathlib

/-!
Shallow embedding of `prun` (`src/main.go`), a parallel fan-out executor:
a producer (`readInput`) splits stdin into lines and builds one `RunJob` per
newline-terminated line; a pool of workers (`runWorker` / `run`) substitutes
each line into the command template and spawns the command; the collector
loop in `main` drains the completion and output channels and exits with the
accumulated error count.

Strings are modelled as `List Char`.  The two channels of a job are modelled
by the list of events a worker emits (`Event.out` for a send on `OutChan`,
`Event.done` for a send on `DoneChan`).  Spawning a subprocess is modelled by
an oracle `exec : List (List Char) → Except (List Char) (List Char)` giving
either the error detail or the captured combined output; the commands handed
to the oracle are returned alongside the events so that "no subprocess was
spawned" is expressible.
-/

/-- Go `unicode.IsSpace` (the Unicode White_Space property), restricted to
the code points Go reports as space: TAB..CR, SP, NEL, NBSP, OGHAM SPACE,
EN QUAD..HAIR SPACE, LINE/PARA SEPARATOR, NNBSP, MMSP, IDEOGRAPHIC SPACE. -/
def goIsSpace (c : Char) : Bool :=
  decide (c.toNat = 9 ∨ c.toNat = 10 ∨ c.toNat = 11 ∨ c.toNat = 12 ∨
    c.toNat = 13 ∨ c.toNat = 32 ∨ c.toNat = 133 ∨ c.toNat = 160 ∨
    c.toNat = 5760 ∨ (8192 ≤ c.toNat ∧ c.toNat ≤ 8202) ∨ c.toNat = 8232 ∨
    c.toNat = 8233 ∨ c.toNat = 8239 ∨ c.toNat = 8287 ∨ c.toNat = 12288)

/-- Go `strings.TrimSpace`: drop leading and trailing white space. -/
def trimSpace (l : List Char) : List Char :=
  ((l.dropWhile goIsSpace).reverse.dropWhile goIsSpace).reverse

/-- Go `strings.Replace(s, "\r", "", -1)`: remove every carriage return. -/
def removeCR (l : List Char) : List Char :=
  l.filter (fun c => decide (c ≠ '\r'))

/-- The argument normalization applied at `src/main.go:156`:
`strings.Replace(strings.TrimSpace(buffer.String()), "\r", "", -1)`. -/
def processLine (l : List Char) : List Char :=
  removeCR (trimSpace l)

/-- `RunJob` (`src/main.go:40`): the argument parsed from one input line and
the job's private copy of the command template.  The two channel fields are
modelled by the event lists the worker functions return. -/
structure RunJob where
  Arg : List Char
  CmdData : List (List Char)
deriving DecidableEq

/-- One send on a job's channels: `out` models `OutChan<- s`, `done` models
`DoneChan<- v`. -/
inductive Event where
  | out (s : List Char)
  | done (v : Nat)
deriving DecidableEq

/-- Number of `Event.out` sends in an event list. -/
def outCount : List Event → Nat
  | [] => 0
  | Event.out _ :: rest => outCount rest + 1
  | Event.done _ :: rest => outCount rest

/-- Number of `Event.done` sends in an event list. -/
def doneCount : List Event → Nat
  | [] => 0
  | Event.done _ :: rest => doneCount rest + 1
  | Event.out _ :: rest => doneCount rest

/-- The loop body of `readInput` (`src/main.go:137-173`): read the input
byte stream; on each `'\n'` emit a `RunJob` built from the buffered bytes
(count it), otherwise append the byte to the buffer.  At EOF return the list
of writes made to the shared total-count cell: exactly the one write
`*totalCnt = count` at `src/main.go:143`. -/
def readInputLoop (args : List (List Char)) (buffer : List Char) (count : Nat) :
    List Char → List RunJob × List Nat
  | [] => ([], [count])
  | c :: rest =>
    if c = '\n' then
      let r := readInputLoop args [] (count + 1) rest
      ({ Arg := processLine buffer, CmdData := args } :: r.1, r.2)
    else
      readInputLoop args (buffer ++ [c]) count rest

/-- `readInput` (`src/main.go:125`): jobs produced from the whole input
stream, together with the writes to the total-count cell.  `args` is the
shared command template `os.Args[2:]`; each job receives a fresh copy of it
(`make` + `copy`, `src/main.go:159-160`), which in this value model is the
same list value. -/
def readInput (args : List (List Char)) (input : List Char) :
    List RunJob × List Nat :=
  readInputLoop args [] 0 input

/-- The placeholder token `{}`. -/
def placeholder : List Char := ['{', '}']

/-- The substitution loop of `run` (`src/main.go:192-196`): every token of
the job's template copy that is exactly `{}` is overwritten with the job's
argument; all other tokens are untouched. -/
def substitute (cmdData : List (List Char)) (arg : List Char) :
    List (List Char) :=
  cmdData.map (fun t => if t = placeholder then arg else t)

/-- `argsToStr` (`src/main.go:98-108`): concatenate tokens separated by a
single space. -/
def argsToStr : List (List Char) → List Char
  | [] => []
  | [a] => a
  | a :: rest => a ++ ' ' :: argsToStr rest

/-- Decimal digits of a worker id, as printed by `%d`. -/
def idChars (id : Nat) : List Char := (Nat.repr id).toList

/-- The line format of `src/main.go:202` and `src/main.go:205`:
`fmt.Sprintf("[%d] %s: %s\n", id, argsToStr(job.CmdData...), msg)`. -/
def fmtLine (id : Nat) (cmd : List (List Char)) (msg : List Char) :
    List Char :=
  '[' :: idChars id ++ [']', ' '] ++ argsToStr cmd ++ [':', ' '] ++ msg ++ ['\n']

/-- Result of spawning a command: `Except.error e` models a non-nil `err`
from `cmd.CombinedOutput()` with detail `e`; `Except.ok o` models success
with combined output `o`. -/
abbrev ExecFn : Type := List (List Char) → Except (List Char) (List Char)

/-- `run` (`src/main.go:180-208`).  Returns the events sent on the job's
channels, in order, together with the list of commands handed to
`exec.Command` (empty on the no-op paths, which spawn nothing). -/
def run (id : Nat) (job : RunJob) (exec : ExecFn) :
    List Event × List (List (List Char)) :=
  if job.CmdData.length < 1 then ([Event.done 0], [])
  else if job.Arg.length < 1 then ([Event.done 0], [])
  else
    let cmd := substitute job.CmdData job.Arg
    match exec cmd with
    | Except.error e => ([Event.out (fmtLine id cmd e), Event.done 1], [cmd])
    | Except.ok o => ([Event.out (fmtLine id cmd o), Event.done 0], [cmd])

/-- One iteration of the worker loop `runWorker` (`src/main.go:212-222`):
receive a job; if its argument is empty report outcome 0 and continue,
otherwise hand the job to `run`. -/
def runWorkerStep (id : Nat) (job : RunJob) (exec : ExecFn) :
    List Event × List (List (List Char)) :=
  if job.Arg.length < 1 then ([Event.done 0], [])
  else run id job exec

/-- The worker loop over a finite stream of received jobs: the events of the
iterations, concatenated.  The loop body never returns early, so every
later job is still processed. -/
def runWorkerJobs (id : Nat) (exec : ExecFn) : List RunJob → List Event
  | [] => []
  | j :: rest => (runWorkerStep id j exec).1 ++ runWorkerJobs id exec rest

/-- `run` with the `len(job.Arg) < 1` branch (`src/main.go:186-189`)
removed; used to state that this branch is dead code for jobs delivered
through `runWorker`. -/
def runNoArgCheck (id : Nat) (job : RunJob) (exec : ExecFn) :
    List Event × List (List (List Char)) :=
  if job.CmdData.length < 1 then ([Event.done 0], [])
  else
    let cmd := substitute job.CmdData job.Arg
    match exec cmd with
    | Except.error e => ([Event.out (fmtLine id cmd e), Event.done 1], [cmd])
    | Except.ok o => ([Event.out (fmtLine id cmd o), Event.done 0], [cmd])

/-! ### Collector model

The collector is the loop of `main` (`src/main.go:79-90`):

    for doneCnt < totalCnt {
        select {
        case val := <-doneChan: errCnt += val; doneCnt++
        case log := <-outChan:  fmt.Print(log)
        }
    }

`totalCnt` starts at `math.MaxInt32` (`src/main.go:66`) and is written once
by the producer at EOF (`src/main.go:143`).  An execution is modelled as a
trace of atomic steps interleaving the collector's channel receives with the
producer's write: `MainEvent.done v` / `MainEvent.out s` are receives,
`MainEvent.finalize n` is the write `*totalCnt = count`.  The loop condition
is re-evaluated after every receive; the `finalize` write does not wake a
collector blocked in `select`, so it updates `totalCnt` without re-checking
the condition. -/

/-- One atomic step of the interleaved producer/collector execution. -/
inductive MainEvent where
  | done (v : Nat)
  | out (s : List Char)
  | finalize (n : Nat)
deriving DecidableEq

/-- Number of completion signals in a trace. -/
def countDone : List MainEvent → Nat
  | [] => 0
  | MainEvent.done _ :: rest => countDone rest + 1
  | _ :: rest => countDone rest

/-- Sum of the completion values in a trace. -/
def sumDone : List MainEvent → Nat
  | [] => 0
  | MainEvent.done v :: rest => v + sumDone rest
  | _ :: rest => sumDone rest

/-- `true` when the trace contains no `finalize` step. -/
def noFinalize (l : List MainEvent) : Bool :=
  l.all fun e =>
    match e with
    | MainEvent.finalize _ => false
    | _ => true

/-- `math.MaxInt32`, the sentinel initial value of `totalCnt`
(`src/main.go:66`). -/
def maxInt32 : Nat := 2147483647

/-- The collector's counters (`src/main.go:64-66`) plus whether the loop of
`src/main.go:80` has exited. -/
structure CollSt where
  totalCnt : Nat
  doneCnt : Nat
  errCnt : Nat
  exited : Bool
deriving DecidableEq

/-- Evaluation of the loop condition `doneCnt < totalCnt`
(`src/main.go:80`): when it fails the loop exits. -/
def checkLoop (s : CollSt) : CollSt :=
  if s.doneCnt < s.totalCnt then s else { s with exited := true }

/-- State before any step: counters zero, `totalCnt` at the sentinel, loop
running. -/
def collInit : CollSt :=
  { totalCnt := maxInt32, doneCnt := 0, errCnt := 0, exited := false }

/-- Effect of one atomic step.  A receive is only possible while the loop
runs (after exit nobody drains the channels, so the senders stay blocked and
the state is unchanged); each receive is followed by a re-evaluation of the
loop condition.  The producer's `finalize` write happens regardless of the
collector's state and triggers no re-evaluation by itself. -/
def collStep (s : CollSt) (e : MainEvent) : CollSt :=
  match e with
  | MainEvent.finalize n => { s with totalCnt := n }
  | MainEvent.done v =>
      if s.exited then s
      else checkLoop { s with doneCnt := s.doneCnt + 1, errCnt := s.errCnt + v }
  | MainEvent.out _ =>
      if s.exited then s
      else checkLoop s

/-- State after running a whole trace from the initial state. -/
def collRun (trace : List MainEvent) : CollSt :=
  trace.foldl collStep collInit

/-! ### Slice-store model for the shared command template

`rj.CmdData = make([]string, len(os.Args)-2); copy(rj.CmdData, os.Args[2:])`
(`src/main.go:159-160`) allocates a fresh slice per job and copies the
template into it, and the substitution loop (`src/main.go:192-196`) writes
into `job.CmdData` in place.  To state the frame property "the shared
template is never mutated" the slices are modelled with identity: a store is
a list of string arrays, index 0 holds the shared template `os.Args[2:]`,
and every `allocJob` appends a fresh array whose contents are copied from
index 0. -/

/-- Allocate one job's `CmdData`: append a copy of the template (store
index 0) and return its reference. -/
def allocJob (st : List (List (List Char))) :
    List (List (List Char)) × Nat :=
  (st ++ [st.headD []], st.length)

/-- Producer-side allocation of `k` jobs' template copies; returns the final
store and the references handed to the jobs, in order. -/
def allocJobsLoop : Nat → List (List (List Char)) → List (List (List Char)) × List Nat
  | 0, st => (st, [])
  | Nat.succ k, st =>
      let a := allocJob st
      let r := allocJobsLoop k a.1
      (r.1, a.2 :: r.2)

/-- The in-place substitution of `src/main.go:192-196` performed on the
array at reference `r` of the store: only that slot is written. -/
def substInStore (st : List (List (List Char))) (r : Nat) (arg : List Char) :
    List (List (List Char)) :=
  st.set r (substitute (st.getD r []) arg)

/-- Run the substitutions of any set of jobs, in any order: `ops` lists
(reference, argument) pairs. -/
def substAll (ops : List (Nat × List Char)) (st : List (List (List Char))) :
    List (List (List Char)) :=
  ops.foldl (fun s p => substInStore s p.1 p.2) st

/-- Definition following claim C4's words, for comparison with the code:
the line with a trailing carriage return stripped and surrounding
whitespace trimmed (interior carriage returns kept). -/
def claimedArg (l : List Char) : List Char :=
  trimSpace (if l.getLast? = some '\r' then l.dropLast else l)

/-- Terminated lines of a byte stream: the segments preceding each `'\n'`;
bytes after the last `'\n'` belong to no line.  Stated independently of
`readInputLoop`'s buffer accumulator. -/
def linesUpTo : List Char → List (List Char)
  | [] => []
  | c :: rest =>
      if c = '\n' then [] :: linesUpTo rest
      else
        match linesUpTo rest with
        | [] => []
        | l :: ls => (c :: l) :: ls

/-- Prepend a pending buffer to the first of a list of line segments (the
bytes already read belong to the first line still to be terminated). -/
def consFirst (b : List Char) : List (List Char) → List (List Char)
  | [] => []
  | l :: ls => (b ++ l) :: ls

example : processLine ['a', '\r', 'b'] = ['a', 'b'] := by decide

example :
    collRun [MainEvent.done 0, MainEvent.finalize 1] =
      { totalCnt := 1, doneCnt := 1, errCnt := 0, exited := false } := by decide

example :
    collRun [MainEvent.finalize 1, MainEvent.done 1] =
      { totalCnt := 1, doneCnt := 1, errCnt := 1, exited := true } := by decide

example : linesUpTo ['a', '\n', 'b'] = [['a']] := by decide

example :
    substAll [(1, ['x'])] (allocJobsLoop 1 [[['{', '}']]]).1 =
      [[['{', '}']], [['x']]] := by decide

example :
    (readInput [['e']] ['a', '\n', 'b']).1 =
      [{ Arg := ['a'], CmdData := [['e']] }] := by decide

example : (readInput [['e']] ['a', '\n', 'b']).2 = [1] := by decide

example :
    substitute [['c', 'p'], ['{', '}'], ['{', '}']] ['x'] =
      [['c', 'p'], ['x'], ['x']] := by decide

/-! ## Theorems -/

/-- Claim C1: for every job with a non-empty argument and non-empty command
template, `run` spawns exactly the substituted command, substitution keeps
the template length, every token exactly equal to `{}` is replaced by the
argument (all occurrences), and every other token — including tokens that
merely contain `{}` as a proper substring — is left unchanged. -/
theorem substitution_spec (id : Nat) (job : RunJob) (exec : ExecFn)
    (hc : job.CmdData ≠ []) (ha : job.Arg ≠ []) :
    (run id job exec).2 = [substitute job.CmdData job.Arg] ∧
    (substitute job.CmdData job.Arg).length = job.CmdData.length ∧
    (∀ i : Nat, (substitute job.CmdData job.Arg)[i]? =
      (job.CmdData[i]?).map (fun t => if t = placeholder then job.Arg else t)) ∧
    (∀ (i : Nat) (t : List Char), job.CmdData[i]? = some t →
      t ≠ placeholder → (substitute job.CmdData job.Arg)[i]? = some t) := by
  have hc' : ¬ job.CmdData.length < 1 := by
    have := List.length_pos.mpr hc; omega
  have ha' : ¬ job.Arg.length < 1 := by
    have := List.length_pos.mpr ha; omega
  refine ⟨?_, ?_, ?_, ?_⟩
  · unfold run
    rw [if_neg hc', if_neg ha']
    cases h : exec (substitute job.CmdData job.Arg) <;> simp [h]
  · simp [substitute]
  · intro i
    simp [substitute]
  · intro i t hi ht
    simp [substitute, hi, ht]

/-- Witness for C1: the spec's own example, template `cp {} {}` with
argument `x` substitutes both occurrences, giving `cp x x`. -/
theorem substitution_spec_witness :
    (run 0 { Arg := ['x'], CmdData := [['c', 'p'], ['{', '}'], ['{', '}']] }
        (fun _ => Except.ok [])).2 = [[['c', 'p'], ['x'], ['x']]] := by
  have h := substitution_spec 0
    { Arg := ['x'], CmdData := [['c', 'p'], ['{', '}'], ['{', '}']] }
    (fun _ => Except.ok []) (by decide) (by decide)
  rw [h.1]
  decide

/-- Claim C7: a job with an empty argument, or one with an empty command
template, is reported with outcome 0, without spawning any subprocess and
without any message on the output channel. -/
theorem noop_spec (id : Nat) (job : RunJob) (exec : ExecFn)
    (h : job.Arg = [] ∨ job.CmdData = []) :
    runWorkerStep id job exec = ([Event.done 0], []) := by
  rcases h with h | h
  · simp [runWorkerStep, h]
  · by_cases ha : job.Arg.length < 1
    · simp [runWorkerStep, ha]
    · simp [runWorkerStep, run, ha, h]

/-- Witness for C7: a blank-line job is a silent success. -/
theorem noop_spec_witness :
    runWorkerStep 3 { Arg := [], CmdData := [['l', 's']] }
        (fun _ => Except.ok []) = ([Event.done 0], []) :=
  noop_spec 3 { Arg := [], CmdData := [['l', 's']] }
    (fun _ => Except.ok []) (Or.inl rfl)

/-- Claim C10: `runWorker` short-circuits empty-argument jobs itself, so
`run` is only ever invoked with a non-empty argument, under which its own
empty-argument branch (`src/main.go:186-189`) can be deleted without
changing behaviour: `run` equals `runNoArgCheck` on every such job. -/
theorem dead_branch_spec (id : Nat) (job : RunJob) (exec : ExecFn) :
    (job.Arg ≠ [] → run id job exec = runNoArgCheck id job exec) ∧
    runWorkerStep id job exec =
      (if job.Arg.length < 1 then ([Event.done 0], [])
       else runNoArgCheck id job exec) := by
  have key : job.Arg ≠ [] → run id job exec = runNoArgCheck id job exec := by
    intro hne
    have ha' : ¬ job.Arg.length < 1 := by
      have := List.length_pos.mpr hne; omega
    by_cases hc : job.CmdData.length < 1
    · simp [run, runNoArgCheck, hc]
    · simp [run, runNoArgCheck, hc, ha']
  refine ⟨key, ?_⟩
  by_cases ha : job.Arg.length < 1
  · simp [runWorkerStep, ha]
  · have hne : job.Arg ≠ [] := by
      intro h
      rw [h] at ha
      simp at ha
    simp [runWorkerStep, ha, key hne]

/-- Witness for C10: on a job with a non-empty argument, `run` and the
version without the empty-argument branch agree. -/
theorem dead_branch_spec_witness :
    run 0 { Arg := ['a'], CmdData := [['e']] } (fun _ => Except.ok ['o']) =
      runNoArgCheck 0 { Arg := ['a'], CmdData := [['e']] }
        (fun _ => Except.ok ['o']) :=
  (dead_branch_spec 0 { Arg := ['a'], CmdData := [['e']] }
    (fun _ => Except.ok ['o'])).1 (by decide)

/-- Counterexample to claim C5 as stated: a blank input line really reaches
a worker as a job (produced here by `readInput` on the input `"\n"`), yet
the worker sends no output message for it — only the completion signal.  So
"exactly one output message per Job that reaches a Worker" is false. -/
theorem blank_line_no_output_cex :
    (readInput [['e', 'c', 'h', 'o']] ['\n']).1 =
      [{ Arg := [], CmdData := [['e', 'c', 'h', 'o']] }] ∧
    doneCount (runWorkerStep 0 { Arg := [], CmdData := [['e', 'c', 'h', 'o']] }
      (fun _ => Except.ok [])).1 = 1 ∧
    outCount (runWorkerStep 0 { Arg := [], CmdData := [['e', 'c', 'h', 'o']] }
      (fun _ => Except.ok [])).1 ≠ 1 := by decide

/-- Claim C5 as amended: every job that reaches a worker produces exactly
one completion signal; it produces exactly one output message unless it is
a no-op job (empty argument or empty command template), which produces
none. -/
theorem per_job_signal_counts (id : Nat) (job : RunJob) (exec : ExecFn) :
    doneCount (runWorkerStep id job exec).1 = 1 ∧
    outCount (runWorkerStep id job exec).1 =
      (if job.Arg = [] ∨ job.CmdData = [] then 0 else 1) := by
  by_cases ha : job.Arg.length < 1
  · have ha0 : job.Arg = [] := List.length_eq_zero.mp (by omega)
    simp [runWorkerStep, ha, doneCount, outCount, ha0]
  · have ha0 : job.Arg ≠ [] := by
      intro h
      rw [h] at ha
      simp at ha
    by_cases hc : job.CmdData.length < 1
    · have hc0 : job.CmdData = [] := List.length_eq_zero.mp (by omega)
      simp [runWorkerStep, run, ha, hc, doneCount, outCount, ha0, hc0]
    · have hc0 : job.CmdData ≠ [] := by
        intro h
        rw [h] at hc
        simp at hc
      cases hex : exec (substitute job.CmdData job.Arg) <;>
        simp [runWorkerStep, run, ha, hc, hex, doneCount, outCount, ha0, hc0]

/-- Claim C6: when spawning/execution fails, the worker sends exactly one
output line — formatted from the worker id, the fully substituted command
line, and the error detail — and reports outcome 1; the failure never
escapes the iteration, so the worker loop goes on to process the remaining
jobs unchanged. -/
theorem error_path_spec (id : Nat) (job : RunJob) (exec : ExecFn)
    (e : List Char) (hc : job.CmdData ≠ []) (ha : job.Arg ≠ [])
    (he : exec (substitute job.CmdData job.Arg) = Except.error e) :
    runWorkerStep id job exec =
      ([Event.out (fmtLine id (substitute job.CmdData job.Arg) e),
        Event.done 1],
       [substitute job.CmdData job.Arg]) ∧
    fmtLine id (substitute job.CmdData job.Arg) e =
      '[' :: idChars id ++ [']', ' '] ++
        argsToStr (substitute job.CmdData job.Arg) ++ [':', ' '] ++ e ++
        ['\n'] ∧
    (∀ rest, runWorkerJobs id exec (job :: rest) =
      [Event.out (fmtLine id (substitute job.CmdData job.Arg) e),
        Event.done 1] ++ runWorkerJobs id exec rest) := by
  have hc' : ¬ job.CmdData.length < 1 := by
    have := List.length_pos.mpr hc; omega
  have ha' : ¬ job.Arg.length < 1 := by
    have := List.length_pos.mpr ha; omega
  have hrun : runWorkerStep id job exec =
      ([Event.out (fmtLine id (substitute job.CmdData job.Arg) e),
        Event.done 1],
       [substitute job.CmdData job.Arg]) := by
    simp [runWorkerStep, run, ha', hc', he]
  refine ⟨hrun, rfl, fun rest => ?_⟩
  simp [runWorkerJobs, hrun]

/-- Witness for C6: a concrete failing job produces the formatted error
line and outcome 1. -/
theorem error_path_spec_witness :
    runWorkerStep 2 { Arg := ['a'], CmdData := [['x'], ['{', '}']] }
        (fun _ => Except.error ['E']) =
      ([Event.out (fmtLine 2 [['x'], ['a']] ['E']), Event.done 1],
       [[['x'], ['a']]]) := by
  have h := error_path_spec 2 { Arg := ['a'], CmdData := [['x'], ['{', '}']] }
    (fun _ => Except.error ['E']) ['E'] (by decide) (by decide) rfl
  rw [h.1]
  decide

/-- Counterexample to claim C4 as stated: the input line `a\r b` would keep
its interior carriage return under the claimed normalization, but the code
removes every carriage return, interior ones included
(`strings.Replace(..., "\r", "", -1)` at `src/main.go:156`). -/
theorem interior_cr_cex :
    (readInput [['w']] ['a', '\r', 'b', '\n']).1 =
      [{ Arg := ['a', 'b'], CmdData := [['w']] }] ∧
    claimedArg ['a', '\r', 'b'] = ['a', '\r', 'b'] ∧
    (['a', 'b'] : List Char) ≠ ['a', '\r', 'b'] := by decide

lemma consFirst_nil (ls : List (List Char)) : consFirst [] ls = ls := by
  cases ls <;> simp [consFirst]

lemma consFirst_cons (b l : List Char) (ls : List (List Char)) :
    consFirst b (l :: ls) = (b ++ l) :: ls := rfl

lemma consFirst_consFirst (a b : List Char) (ls : List (List Char)) :
    consFirst a (consFirst b ls) = consFirst (a ++ b) ls := by
  cases ls <;> simp [consFirst, List.append_assoc]

lemma readInputLoop_cons_nl (args : List (List Char)) (buffer : List Char)
    (count : Nat) (rest : List Char) :
    readInputLoop args buffer count ('\n' :: rest) =
      ({ Arg := processLine buffer, CmdData := args } ::
        (readInputLoop args [] (count + 1) rest).1,
       (readInputLoop args [] (count + 1) rest).2) := by
  simp [readInputLoop]

lemma readInputLoop_cons_other (args : List (List Char)) (buffer : List Char)
    (count : Nat) (rest : List Char) (c : Char) (hc : ¬ c = '\n') :
    readInputLoop args buffer count (c :: rest) =
      readInputLoop args (buffer ++ [c]) count rest := by
  simp [readInputLoop, hc]

lemma linesUpTo_cons_nl (rest : List Char) :
    linesUpTo ('\n' :: rest) = [] :: linesUpTo rest := by
  simp [linesUpTo]

lemma linesUpTo_cons_other (c : Char) (rest : List Char) (hc : ¬ c = '\n') :
    linesUpTo (c :: rest) = consFirst [c] (linesUpTo rest) := by
  simp only [linesUpTo, if_neg hc]
  cases h : linesUpTo rest <;> simp [consFirst]

lemma readInputLoop_jobs (args : List (List Char)) :
    ∀ (input buffer : List Char) (count : Nat),
    (readInputLoop args buffer count input).1 =
      (consFirst buffer (linesUpTo input)).map
        (fun l => { Arg := processLine l, CmdData := args }) := by
  intro input
  induction input with
  | nil => intro buffer count; simp [readInputLoop, linesUpTo, consFirst]
  | cons c rest ih =>
    intro buffer count
    by_cases hc : c = '\n'
    · subst hc
      simp [readInputLoop_cons_nl, linesUpTo_cons_nl, consFirst_cons,
        consFirst_nil, ih [] (count + 1)]
    · rw [readInputLoop_cons_other args buffer count rest c hc,
        ih (buffer ++ [c]) count, linesUpTo_cons_other c rest hc,
        consFirst_consFirst]

lemma readInputLoop_count (args : List (List Char)) :
    ∀ (input buffer : List Char) (count : Nat),
    (readInputLoop args buffer count input).1.length = input.count '\n' ∧
    (readInputLoop args buffer count input).2 = [count + input.count '\n'] := by
  intro input
  induction input with
  | nil => intro buffer count; simp [readInputLoop]
  | cons c rest ih =>
    intro buffer count
    by_cases hc : c = '\n'
    · subst hc
      have h := ih [] (count + 1)
      simp only [readInputLoop, if_pos rfl]
      refine ⟨?_, ?_⟩
      · simp [h.1, List.count_cons]
      · rw [h.2]
        simp [List.count_cons]
        omega
    · have h := ih (buffer ++ [c]) count
      have hc' : ¬ ('\n' = c) := fun h' => hc h'.symm
      simp only [readInputLoop, if_neg hc]
      refine ⟨?_, ?_⟩
      · simp [h.1, List.count_cons, hc']
      · rw [h.2]
        simp [List.count_cons, hc']

lemma readInputLoop_drops_tail (args : List (List Char)) :
    ∀ (tail : List Char), '\n' ∉ tail →
    ∀ (buffer : List Char) (count : Nat),
    readInputLoop args buffer count tail = ([], [count]) := by
  intro tail
  induction tail with
  | nil => intro _ buffer count; simp [readInputLoop]
  | cons c rest ih =>
    intro hmem buffer count
    have hc : ¬ (c = '\n') := fun h => hmem (h ▸ List.mem_cons_self c rest)
    have hrest : '\n' ∉ rest := fun h => hmem (List.mem_cons_of_mem c h)
    simp only [readInputLoop, if_neg hc]
    exact ih hrest (buffer ++ [c]) count

lemma readInputLoop_append_tail (args : List (List Char)) :
    ∀ (input tail : List Char), '\n' ∉ tail →
    ∀ (buffer : List Char) (count : Nat),
    readInputLoop args buffer count (input ++ tail) =
      readInputLoop args buffer count input := by
  intro input
  induction input with
  | nil =>
    intro tail htail buffer count
    rw [List.nil_append]
    rw [readInputLoop_drops_tail args tail htail buffer count]
    simp [readInputLoop]
  | cons c rest ih =>
    intro tail htail buffer count
    have hstep : (c :: rest) ++ tail = c :: (rest ++ tail) := rfl
    by_cases hc : c = '\n'
    · subst hc
      rw [hstep, readInputLoop_cons_nl, readInputLoop_cons_nl,
        ih tail htail [] (count + 1)]
    · rw [hstep, readInputLoop_cons_other args buffer count (rest ++ tail) c hc,
        readInputLoop_cons_other args buffer count rest c hc,
        ih tail htail (buffer ++ [c]) count]

/-- Claim C3: the producer creates exactly one Job per line-feed-terminated
line (the total-count write equals the number of jobs and the number of
`'\n'` bytes), the write to the shared total-count cell happens exactly
once, and a final unterminated line at end-of-input contributes nothing:
appending newline-free bytes to the input changes neither the jobs nor the
count. -/
theorem producer_spec (args : List (List Char)) (input : List Char) :
    (readInput args input).2 = [(readInput args input).1.length] ∧
    (readInput args input).1.length = input.count '\n' ∧
    (∀ tail, '\n' ∉ tail →
      readInput args (input ++ tail) = readInput args input) := by
  have h := readInputLoop_count args input [] 0
  refine ⟨?_, ?_, ?_⟩
  · unfold readInput
    rw [h.1, h.2]
    simp
  · exact h.1
  · intro tail htail
    unfold readInput
    exact readInputLoop_append_tail args input tail htail [] 0

/-- Witness for C3: input `a\n` followed by the unterminated bytes `b`
yields the same single job and the same single count write as `a\n` alone. -/
theorem producer_spec_witness :
    readInput [['t']] (['a', '\n'] ++ ['b']) = readInput [['t']] ['a', '\n'] :=
  (producer_spec [['t']] ['a', '\n']).2.2 ['b'] (by decide)

/-- Claim C4 as amended: each Job's argument is the corresponding
newline-terminated line with surrounding whitespace trimmed and then every
remaining carriage return removed — interior carriage returns are removed
too, not preserved. -/
theorem argument_normalization (args : List (List Char)) (input : List Char) :
    (readInput args input).1 =
      (linesUpTo input).map
        (fun l => { Arg := removeCR (trimSpace l), CmdData := args }) := by
  unfold readInput
  rw [readInputLoop_jobs args input [] 0, consFirst_nil]
  rfl

lemma countDone_append (a b : List MainEvent) :
    countDone (a ++ b) = countDone a + countDone b := by
  induction a with
  | nil => simp [countDone]
  | cons e rest ih =>
    cases e with
    | done v => simp [countDone, ih]; omega
    | out s => simp [countDone, ih]
    | finalize m => simp [countDone, ih]

lemma sumDone_append (a b : List MainEvent) :
    sumDone (a ++ b) = sumDone a + sumDone b := by
  induction a with
  | nil => simp [sumDone]
  | cons e rest ih =>
    cases e with
    | done v => simp [sumDone, ih]; omega
    | out s => simp [sumDone, ih]
    | finalize m => simp [sumDone, ih]

lemma noFinalize_append (a b : List MainEvent) :
    noFinalize (a ++ b) = (noFinalize a && noFinalize b) := by
  simp [noFinalize, List.all_append]

lemma collSteps_pre (r : List MainEvent) :
    ∀ s : CollSt, s.totalCnt = maxInt32 → s.exited = false →
    s.doneCnt + countDone r < maxInt32 → noFinalize r = true →
    (r.foldl collStep s).totalCnt = maxInt32 ∧
    (r.foldl collStep s).doneCnt = s.doneCnt + countDone r ∧
    (r.foldl collStep s).errCnt = s.errCnt + sumDone r ∧
    (r.foldl collStep s).exited = false := by
  induction r with
  | nil =>
    intro s h1 h2 h3 h4
    exact ⟨h1, by simp [countDone], by simp [sumDone], h2⟩
  | cons e rest ih =>
    intro s h1 h2 h3 h4
    cases e with
    | finalize n => simp [noFinalize] at h4
    | done v =>
      have h4' : noFinalize rest = true := by
        simpa [noFinalize] using h4
      have hcnt : countDone (MainEvent.done v :: rest) = countDone rest + 1 := rfl
      rw [hcnt] at h3
      have hlt : s.doneCnt + 1 < s.totalCnt := by
        rw [h1]
        omega
      have hchk : collStep s (MainEvent.done v) =
          { s with doneCnt := s.doneCnt + 1, errCnt := s.errCnt + v } := by
        simp [collStep, h2, checkLoop, hlt]
      rw [List.foldl_cons, hchk]
      have hres := ih { s with doneCnt := s.doneCnt + 1, errCnt := s.errCnt + v }
        (by simp [h1]) (by simp [h2]) (by simp; omega) h4'
      refine ⟨hres.1, ?_, ?_, hres.2.2.2⟩
      · rw [hres.2.1, hcnt]
        simp
        omega
      · rw [hres.2.2.1]
        have : sumDone (MainEvent.done v :: rest) = v + sumDone rest := rfl
        rw [this]
        simp
        omega
    | out str =>
      have h4' : noFinalize rest = true := by
        simpa [noFinalize] using h4
      have hcnt : countDone (MainEvent.out str :: rest) = countDone rest := rfl
      rw [hcnt] at h3
      have hlt : s.doneCnt < s.totalCnt := by
        rw [h1]
        omega
      have hchk : collStep s (MainEvent.out str) = s := by
        simp [collStep, h2, checkLoop, hlt]
      rw [List.foldl_cons, hchk]
      have hres := ih s h1 h2 h3 h4'
      refine ⟨hres.1, ?_, ?_, hres.2.2.2⟩
      · rw [hres.2.1, hcnt]
      · rw [hres.2.2.1]
        rfl

lemma collSteps_post (n : Nat) (r : List MainEvent) :
    ∀ s : CollSt, s.totalCnt = n → (s.exited = true → s.doneCnt = n) →
    s.doneCnt + countDone r ≤ n → noFinalize r = true →
    (r.foldl collStep s).totalCnt = n ∧
    (r.foldl collStep s).doneCnt = s.doneCnt + countDone r ∧
    (r.foldl collStep s).errCnt = s.errCnt + sumDone r ∧
    ((r.foldl collStep s).exited = true → (r.foldl collStep s).doneCnt = n) := by
  induction r with
  | nil =>
    intro s h1 h2 h3 h4
    refine ⟨h1, by simp [countDone], by simp [sumDone], ?_⟩
    intro hx
    exact h2 hx
  | cons e rest ih =>
    intro s h1 h2 h3 h4
    cases e with
    | finalize m => simp [noFinalize] at h4
    | done v =>
      have h4' : noFinalize rest = true := by
        simpa [noFinalize] using h4
      have hcnt : countDone (MainEvent.done v :: rest) = countDone rest + 1 := rfl
      have hsum : sumDone (MainEvent.done v :: rest) = v + sumDone rest := rfl
      rw [hcnt] at h3
      by_cases hex : s.exited = true
      · exfalso
        have := h2 hex
        omega
      · have hexf : s.exited = false := by
          cases hb : s.exited
          · rfl
          · exact absurd hb hex
        by_cases hlt : s.doneCnt + 1 < n
        · have hchk : collStep s (MainEvent.done v) =
              { s with doneCnt := s.doneCnt + 1, errCnt := s.errCnt + v } := by
            have hlt' : s.doneCnt + 1 < s.totalCnt := by rw [h1]; exact hlt
            simp [collStep, hexf, checkLoop, hlt']
          rw [List.foldl_cons, hchk]
          have hres := ih { s with doneCnt := s.doneCnt + 1, errCnt := s.errCnt + v }
            (by simp [h1]) (by intro hx; exact absurd hx hex) (by simp; omega) h4'
          refine ⟨hres.1, ?_, ?_, hres.2.2.2⟩
          · rw [hres.2.1, hcnt]
            simp
            omega
          · rw [hres.2.2.1, hsum]
            simp
            omega
        · have heq : s.doneCnt + 1 = n := by omega
          have hrest0 : countDone rest = 0 := by omega
          have hge : ¬ s.doneCnt + 1 < s.totalCnt := by rw [h1]; exact hlt
          have hchk : collStep s (MainEvent.done v) =
              { totalCnt := s.totalCnt, doneCnt := s.doneCnt + 1, errCnt := s.errCnt + v, exited := true } := by
            simp [collStep, hexf, checkLoop, hge]
          rw [List.foldl_cons, hchk]
          have hres := ih { totalCnt := s.totalCnt, doneCnt := s.doneCnt + 1, errCnt := s.errCnt + v, exited := true }
            (by simp [h1]) (by intro _; simp [heq]) (by simp [hrest0]; omega) h4'
          refine ⟨hres.1, ?_, ?_, hres.2.2.2⟩
          · rw [hres.2.1, hcnt]
            simp
            omega
          · rw [hres.2.2.1, hsum]
            simp
            omega
    | out str =>
      have h4' : noFinalize rest = true := by
        simpa [noFinalize] using h4
      have hcnt : countDone (MainEvent.out str :: rest) = countDone rest := rfl
      have hsum : sumDone (MainEvent.out str :: rest) = sumDone rest := rfl
      rw [hcnt] at h3
      by_cases hex : s.exited = true
      · have hchk : collStep s (MainEvent.out str) = s := by
          simp [collStep, hex]
        rw [List.foldl_cons, hchk]
        have hres := ih s h1 h2 h3 h4'
        exact ⟨hres.1, by rw [hres.2.1, hcnt], by rw [hres.2.2.1, hsum], hres.2.2.2⟩
      · have hexf : s.exited = false := by
          cases hb : s.exited
          · rfl
          · exact absurd hb hex
        by_cases hlt : s.doneCnt < n
        · have hlt' : s.doneCnt < s.totalCnt := by rw [h1]; exact hlt
          have hchk : collStep s (MainEvent.out str) = s := by
            simp [collStep, hexf, checkLoop, hlt']
          rw [List.foldl_cons, hchk]
          have hres := ih s h1 h2 h3 h4'
          exact ⟨hres.1, by rw [hres.2.1, hcnt], by rw [hres.2.2.1, hsum], hres.2.2.2⟩
        · have heq : s.doneCnt = n := by omega
          have hge : ¬ s.doneCnt < s.totalCnt := by rw [h1]; exact hlt
          have hchk : collStep s (MainEvent.out str) =
              { totalCnt := s.totalCnt, doneCnt := s.doneCnt, errCnt := s.errCnt, exited := true } := by
            simp [collStep, hexf, checkLoop, hge]
          rw [List.foldl_cons, hchk]
          have hres := ih { totalCnt := s.totalCnt, doneCnt := s.doneCnt, errCnt := s.errCnt, exited := true }
            (by simp [h1]) (by intro _; simp [heq]) (by simp; omega) h4'
          refine ⟨hres.1, ?_, ?_, hres.2.2.2⟩
          · rw [hres.2.1, hcnt]
          · rw [hres.2.2.1, hsum]

lemma collRun_pre_state (pre : List MainEvent) (hpre : noFinalize pre = true)
    (hlt : countDone pre < maxInt32) :
    (collRun pre).totalCnt = maxInt32 ∧ (collRun pre).doneCnt = countDone pre ∧
    (collRun pre).errCnt = sumDone pre ∧ (collRun pre).exited = false := by
  have h := collSteps_pre pre collInit rfl rfl (by simpa [collInit] using hlt) hpre
  simpa [collRun, collInit] using h

lemma collRun_mid_state (n : Nat) (pre q : List MainEvent)
    (hpre : noFinalize pre = true) (hq : noFinalize q = true)
    (hn : n < maxInt32) (hbound : countDone pre + countDone q ≤ n) :
    (collRun (pre ++ MainEvent.finalize n :: q)).totalCnt = n ∧
    (collRun (pre ++ MainEvent.finalize n :: q)).doneCnt =
      countDone pre + countDone q ∧
    (collRun (pre ++ MainEvent.finalize n :: q)).errCnt =
      sumDone pre + sumDone q ∧
    ((collRun (pre ++ MainEvent.finalize n :: q)).exited = true →
      (collRun (pre ++ MainEvent.finalize n :: q)).doneCnt = n) := by
  have hpres := collRun_pre_state pre hpre (by omega)
  have hsplit : collRun (pre ++ MainEvent.finalize n :: q) =
      q.foldl collStep (collStep (collRun pre) (MainEvent.finalize n)) := by
    simp [collRun, List.foldl_append]
  have hfin : collStep (collRun pre) (MainEvent.finalize n) =
      { collRun pre with totalCnt := n } := rfl
  rw [hsplit, hfin]
  have hres := collSteps_post n q { collRun pre with totalCnt := n }
    (by simp) (by intro hx; simp [hpres.2.2.2] at hx)
    (by simp [hpres.2.1]; omega) hq
  refine ⟨hres.1, ?_, ?_, hres.2.2.2⟩
  · rw [hres.2.1]
    simp [hpres.2.1]
  · rw [hres.2.2.1]
    simp [hpres.2.2.1]

lemma collStep_last (n : Nat) (S : CollSt) (hTot : S.totalCnt = n)
    (hExi : S.exited = true → S.doneCnt = n) (e : MainEvent)
    (hdone : S.doneCnt + countDone [e] = n) (he : noFinalize [e] = true) :
    (collStep S e).exited = true ∧ (collStep S e).doneCnt = n ∧
    (collStep S e).errCnt = S.errCnt + sumDone [e] := by
  cases e with
  | finalize m => simp [noFinalize] at he
  | done v =>
    have h1 : countDone [MainEvent.done v] = 1 := rfl
    rw [h1] at hdone
    by_cases hex : S.exited = true
    · exfalso
      have := hExi hex
      omega
    · have hexf : S.exited = false := by
        cases hb : S.exited
        · rfl
        · exact absurd hb hex
      have hge : ¬ S.doneCnt + 1 < S.totalCnt := by
        rw [hTot]
        omega
      have hstep : collStep S (MainEvent.done v) =
          { totalCnt := S.totalCnt, doneCnt := S.doneCnt + 1, errCnt := S.errCnt + v, exited := true } := by
        simp [collStep, hexf, checkLoop, hge]
      rw [hstep]
      refine ⟨rfl, by simp; omega, by simp [sumDone]⟩
  | out str =>
    have h0 : countDone [MainEvent.out str] = 0 := rfl
    rw [h0] at hdone
    by_cases hex : S.exited = true
    · have hstep : collStep S (MainEvent.out str) = S := by
        simp [collStep, hex]
      rw [hstep]
      exact ⟨hex, by rw [hExi hex], by simp [sumDone]⟩
    · have hexf : S.exited = false := by
        cases hb : S.exited
        · rfl
        · exact absurd hb hex
      have hge : ¬ S.doneCnt < S.totalCnt := by
        rw [hTot]
        omega
      have hstep : collStep S (MainEvent.out str) =
          { totalCnt := S.totalCnt, doneCnt := S.doneCnt, errCnt := S.errCnt, exited := true } := by
        simp [collStep, hexf, checkLoop, hge]
      rw [hstep]
      exact ⟨rfl, by simp; omega, by simp [sumDone]⟩

lemma collRun_final_state (n : Nat) (pre post : List MainEvent)
    (hpre : noFinalize pre = true) (hpost : noFinalize post = true)
    (hn : n < maxInt32) (hcount : countDone pre + countDone post = n)
    (hne : post ≠ []) :
    (collRun (pre ++ MainEvent.finalize n :: post)).exited = true ∧
    (collRun (pre ++ MainEvent.finalize n :: post)).doneCnt = n ∧
    (collRun (pre ++ MainEvent.finalize n :: post)).errCnt =
      sumDone pre + sumDone post := by
  obtain ⟨q, e, hqe⟩ : ∃ q e, post = q ++ [e] := by
    rcases hrev : post.reverse with _ | ⟨x, xs⟩
    · exfalso
      apply hne
      rw [← List.reverse_reverse post, hrev]
      rfl
    · refine ⟨xs.reverse, x, ?_⟩
      rw [← List.reverse_reverse post, hrev]
      simp
  subst hqe
  have hqe' : (noFinalize q && noFinalize [e]) = true := by
    rw [← noFinalize_append]
    exact hpost
  have hq : noFinalize q = true := by
    simp at hqe'
    exact hqe'.1
  have he : noFinalize [e] = true := by
    simp at hqe'
    exact hqe'.2
  have hcq : countDone pre + countDone q + countDone [e] = n := by
    rw [countDone_append] at hcount
    omega
  have hmid := collRun_mid_state n pre q hpre hq hn (by omega)
  have hsplit : collRun (pre ++ MainEvent.finalize n :: (q ++ [e])) =
      collStep (collRun (pre ++ MainEvent.finalize n :: q)) e := by
    have hassoc : pre ++ MainEvent.finalize n :: (q ++ [e]) =
        (pre ++ MainEvent.finalize n :: q) ++ [e] := by
      simp
    rw [hassoc, collRun, List.foldl_append]
    rfl
  rw [hsplit]
  have hlast := collStep_last n (collRun (pre ++ MainEvent.finalize n :: q))
    hmid.1 hmid.2.2.2 e (by rw [hmid.2.1]; omega) he
  refine ⟨hlast.1, hlast.2.1, ?_⟩
  rw [hlast.2.2, hmid.2.2.1, sumDone_append]
  omega

/-- Counterexample to claim C9 as stated: the interleaving in which the
collector consumes the final completion signal before the producer's
finalize write reaches `doneCnt = totalCnt = 1`, yet the loop has not
exited — the condition of `src/main.go:80` is only re-evaluated after a
channel receive, and no further event ever arrives, so "the collector loop
terminates exactly when doneCount reaches totalCount" fails in the
"terminates when reached" direction. -/
theorem collector_block_cex :
    (collRun [MainEvent.done 0, MainEvent.finalize 1]).doneCnt =
      (collRun [MainEvent.done 0, MainEvent.finalize 1]).totalCnt ∧
    (collRun [MainEvent.done 0, MainEvent.finalize 1]).exited = false := by
  decide

/-- Claim C9 as amended: for a run of `n` jobs (`n` below the `MaxInt32`
sentinel) whose trace is any interleaving of completion signals, output
messages and the single finalize write — with all `n` completions present —
(a) before the finalize write the loop never exits and `totalCnt` still
holds the sentinel; (b) in every state from the finalize write on,
`doneCnt ≤ totalCnt = n`, and if the loop has exited then
`doneCnt = totalCnt`; (c) the loop does exit (with `doneCnt = n`) provided
at least one channel receive follows the finalize write — if the finalize
write lands after the last receive, the loop blocks forever even though
`doneCnt = totalCnt`. -/
theorem collector_invariants (n : Nat) (pre post : List MainEvent)
    (hn : n < maxInt32)
    (hpre : noFinalize pre = true) (hpost : noFinalize post = true)
    (hcount : countDone pre + countDone post = n) :
    (∀ q r, pre = q ++ r →
      (collRun q).exited = false ∧ (collRun q).totalCnt = maxInt32) ∧
    (∀ q r, post = q ++ r →
      (collRun (pre ++ MainEvent.finalize n :: q)).totalCnt = n ∧
      (collRun (pre ++ MainEvent.finalize n :: q)).doneCnt ≤ n ∧
      ((collRun (pre ++ MainEvent.finalize n :: q)).exited = true →
        (collRun (pre ++ MainEvent.finalize n :: q)).doneCnt = n)) ∧
    (post ≠ [] →
      (collRun (pre ++ MainEvent.finalize n :: post)).exited = true ∧
      (collRun (pre ++ MainEvent.finalize n :: post)).doneCnt = n) := by
  refine ⟨?_, ?_, ?_⟩
  · intro q r hqr
    subst hqr
    have hq : noFinalize q = true := by
      rw [noFinalize_append] at hpre
      simp at hpre
      exact hpre.1
    have hlt : countDone q < maxInt32 := by
      rw [countDone_append] at hcount
      omega
    have h := collRun_pre_state q hq hlt
    exact ⟨h.2.2.2, h.1⟩
  · intro q r hqr
    subst hqr
    have hq : noFinalize q = true := by
      rw [noFinalize_append] at hpost
      simp at hpost
      exact hpost.1
    have hb : countDone pre + countDone q ≤ n := by
      rw [countDone_append] at hcount
      omega
    have h := collRun_mid_state n pre q hpre hq hn hb
    refine ⟨h.1, ?_, h.2.2.2⟩
    rw [h.2.1]
    omega
  · intro hne
    have h := collRun_final_state n pre post hpre hpost hn hcount hne
    exact ⟨h.1, h.2.1⟩

/-- Witness for the amended C9: one job, finalize before an output receive;
the loop exits with `doneCnt = totalCnt = 1`. -/
theorem collector_invariants_witness :
    (collRun [MainEvent.done 0, MainEvent.finalize 1,
      MainEvent.out ['m']]).exited = true ∧
    (collRun [MainEvent.done 0, MainEvent.finalize 1,
      MainEvent.out ['m']]).doneCnt = 1 := by
  have h := (collector_invariants 1 [MainEvent.done 0] [MainEvent.out ['m']]
    (by decide) (by decide) (by decide) (by decide)).2.2 (by decide)
  simpa using h

/-- Claim C2: when the collector loop exits (its trace contains the single
finalize write of the job total `n` and all `n` completion signals, with a
receive after the finalize), the value handed to `os.Exit`
(`src/main.go:93`) — `errCnt` — equals the sum of all values received on
the completion channel, and is 0 when every job reported success. -/
theorem exit_code_spec (n : Nat) (pre post : List MainEvent)
    (hn : n < maxInt32)
    (hpre : noFinalize pre = true) (hpost : noFinalize post = true)
    (hcount : countDone pre + countDone post = n) (hne : post ≠ []) :
    (collRun (pre ++ MainEvent.finalize n :: post)).exited = true ∧
    (collRun (pre ++ MainEvent.finalize n :: post)).errCnt =
      sumDone pre + sumDone post ∧
    (sumDone pre + sumDone post = 0 →
      (collRun (pre ++ MainEvent.finalize n :: post)).errCnt = 0) := by
  have h := collRun_final_state n pre post hpre hpost hn hcount hne
  refine ⟨h.1, h.2.2, fun hz => ?_⟩
  rw [h.2.2, hz]

/-- Witness for C2: two jobs, both failing (outcome 1); the collector exits
with `errCnt = 2`. -/
theorem exit_code_spec_witness :
    (collRun [MainEvent.done 1, MainEvent.finalize 2, MainEvent.done 1,
      MainEvent.out []]).errCnt = 2 := by
  have h := exit_code_spec 2 [MainEvent.done 1]
    [MainEvent.done 1, MainEvent.out []]
    (by decide) (by decide) (by decide) (by decide) (by decide)
  simpa using h.2.1

lemma headD_append_single (st : List (List (List Char))) (x : List (List Char))
    (hst : st ≠ []) : (st ++ [x]).headD [] = st.headD [] := by
  cases st with
  | nil => exact absurd rfl hst
  | cons a t => rfl

lemma getD_append_len (st ext : List (List (List Char))) (x : List (List Char)) :
    ((st ++ [x]) ++ ext).getD st.length [] = x := by
  induction st with
  | nil => simp
  | cons a t ih => simpa using ih

lemma allocJobsLoop_spec (k : Nat) :
    ∀ st : List (List (List Char)), st ≠ [] →
    (∃ ext, (allocJobsLoop k st).1 = st ++ ext) ∧
    (∀ r, r ∈ (allocJobsLoop k st).2 →
      st.length ≤ r ∧ (allocJobsLoop k st).1.getD r [] = st.headD []) := by
  induction k with
  | zero =>
    intro st _
    refine ⟨⟨[], by simp [allocJobsLoop]⟩, ?_⟩
    intro r hr
    simp [allocJobsLoop] at hr
  | succ k ih =>
    intro st hst
    have hstep : allocJobsLoop (k + 1) st =
        ((allocJobsLoop k (st ++ [st.headD []])).1,
         st.length :: (allocJobsLoop k (st ++ [st.headD []])).2) := rfl
    have hst' : st ++ [st.headD []] ≠ [] := by simp
    have hih := ih (st ++ [st.headD []]) hst'
    obtain ⟨⟨ext, hext⟩, hmem⟩ := hih
    rw [hstep]
    constructor
    · exact ⟨[st.headD []] ++ ext, by rw [hext, List.append_assoc]⟩
    · intro r hr
      rcases List.mem_cons.mp hr with hr0 | hrrec
      · subst hr0
        refine ⟨Nat.le_refl _, ?_⟩
        rw [hext, getD_append_len]
      · have hm := hmem r hrrec
        refine ⟨?_, ?_⟩
        · have : (st ++ [st.headD []]).length = st.length + 1 := by simp
          omega
        · rw [hm.2, headD_append_single st (st.headD []) hst]

lemma substAll_head : ∀ (ops : List (Nat × List Char))
    (st : List (List (List Char))),
    (∀ p ∈ ops, 1 ≤ p.1) → (substAll ops st).headD [] = st.headD [] := by
  intro ops
  induction ops with
  | nil => intro st _; rfl
  | cons p rest ih =>
    intro st h
    have h1 : 1 ≤ p.1 := h p (List.mem_cons_self p rest)
    obtain ⟨i, hi⟩ : ∃ i, p.1 = i + 1 := ⟨p.1 - 1, by omega⟩
    have hstep : substAll (p :: rest) st =
        substAll rest (substInStore st p.1 p.2) := rfl
    rw [hstep, ih _ (fun q hq => h q (List.mem_cons_of_mem p hq))]
    rw [hi]
    unfold substInStore
    cases st with
    | nil => simp
    | cons a t => simp

/-- Claim C8: in the slice-identity model (store index 0 holds the shared
template `os.Args[2:]`), the producer hands every job a fresh copy at a
reference distinct from the template's, each copy's contents equal the
template, and running the in-place substitution of any jobs in any order
leaves the template slot unchanged: the shared command template is never
mutated. -/
theorem template_never_mutated (tmpl : List (List Char)) (k : Nat)
    (ops : List (Nat × List Char)) (hops : ∀ p ∈ ops, 1 ≤ p.1) :
    (allocJobsLoop k [tmpl]).1.headD [] = tmpl ∧
    (∀ r, r ∈ (allocJobsLoop k [tmpl]).2 →
      1 ≤ r ∧ (allocJobsLoop k [tmpl]).1.getD r [] = tmpl) ∧
    (substAll ops (allocJobsLoop k [tmpl]).1).headD [] = tmpl := by
  obtain ⟨⟨ext, hext⟩, hmem⟩ := allocJobsLoop_spec k [tmpl] (by simp)
  have hhead : (allocJobsLoop k [tmpl]).1.headD [] = tmpl := by
    rw [hext]
    rfl
  refine ⟨hhead, ?_, ?_⟩
  · intro r hr
    have hm := hmem r hr
    exact ⟨by simpa using hm.1, hm.2⟩
  · rw [substAll_head ops _ hops, hhead]

/-- Witness for C8: one allocated job, one substitution at its reference;
the template slot still holds `{}`. -/
theorem template_never_mutated_witness :
    (substAll [(1, ['x'])] (allocJobsLoop 1 [[['{', '}']]]).1).headD [] =
      [['{', '}']] :=
  (template_never_mutated [['{', '}']] 1 [(1, ['x'])] (by decide)).2.2
